import Mathlib

/-!
Verification of the change-detection and notification pipeline of
`scraper.py`.  The pure core — URL stripping, the seen-URL merge, the
state-file schema, and the per-source diff/notify/merge step of `run` —
is embedded as executable Lean definitions.  The effectful collaborators
(HTTP fetch, Telegram delivery, the filesystem, `int()` parsing of
environment strings) enter as oracle parameters: a fetch outcome per
source, a delivery outcome per item, a parsed JSON document, a parsed
integer.
-/

/-! ## Python string stripping (`str.strip()` as used on URLs) -/

/-- Whitespace recognised by `str.strip()`, restricted to the ASCII
whitespace characters (space, tab, newline, carriage return, vertical
tab, form feed).  Python additionally strips rarer Unicode space
characters; no claim exercises those. -/
def isPySpace (c : Char) : Bool :=
  c == ' ' || c == '\t' || c == '\n' || c == '\r' || c == '\x0B' || c == '\x0C'

/-- `str.strip()` on a list of characters: drop whitespace from the
front, then from the back. -/
def pyStripList (l : List Char) : List Char :=
  ((l.dropWhile isPySpace).reverse.dropWhile isPySpace).reverse

/-- `url.strip()` from `scraper.py` (used at lines 303, 311, 322). -/
def pyStrip (s : String) : String :=
  String.mk (pyStripList s.data)

/-! ## `merge_seen_urls` (scraper.py lines 318-329) -/

/-- The `for url in new_urls + existing` loop of `merge_seen_urls`.
The source keeps a companion set `seen` whose contents are always
exactly the entries of `merged`; the membership test `clean_url in seen`
is therefore expressed directly as membership in `merged`.  After an
append the loop breaks as soon as `len(merged) >= max_items`. -/
def mergeLoop (urls : List String) (merged : List String) (max_items : Nat) : List String :=
  match urls with
  | [] => merged
  | url :: rest =>
    if pyStrip url = "" ∨ pyStrip url ∈ merged then
      mergeLoop rest merged max_items
    else
      if max_items ≤ (merged ++ [pyStrip url]).length then merged ++ [pyStrip url]
      else mergeLoop rest (merged ++ [pyStrip url]) max_items

/-- `merge_seen_urls(existing, new_urls, max_items)`: iterate over
`new_urls + existing` starting from an empty accumulator. -/
def merge_seen_urls (existing : List String) (new_urls : List String) (max_items : Nat) :
    List String :=
  mergeLoop (new_urls ++ existing) [] max_items

/-- The merge as the spec words it (section 4.3): new URLs prepended
ahead of existing ones, blank/whitespace-only URLs discarded, duplicates
removed keeping the earliest occurrence — with no cap applied yet.
Truncation to the cap is then `List.take`. -/
def cleanDedupAcc (urls : List String) (merged : List String) : List String :=
  match urls with
  | [] => merged
  | url :: rest =>
    if pyStrip url = "" ∨ pyStrip url ∈ merged then cleanDedupAcc rest merged
    else cleanDedupAcc rest (merged ++ [pyStrip url])

/-! ## `parse_int_env` (scraper.py lines 89-98) -/

/-- `parse_int_env`: the outcome of Python `int(raw)` arrives as an
oracle (`none` models a `ValueError` on parse).  A parsed value below 1
raises, and the handler returns the default; logging is elided. -/
def parse_int_env_model (parsed : Option Int) (default_value : Int) : Int :=
  match parsed with
  | some value => if value < 1 then default_value else value
  | none => default_value

/-! ## The persisted state file (scraper.py lines 279-346) -/

/-- JSON documents, as produced by `json.loads` on the state file.
Objects are association lists; documents produced by `json.dumps` have
pairwise-distinct keys, and lookups take the first match. -/
inductive Json where
  | null : Json
  | bool (b : Bool) : Json
  | num (n : Int) : Json
  | str (s : String) : Json
  | arr (items : List Json) : Json
  | obj (fields : List (String × Json)) : Json

/-- Python `dict` lookup on an association list (`parsed.get(k)`,
`seen_by_source[key]`). -/
def dictGet {α : Type} (m : List (String × α)) (k : String) : Option α :=
  match m with
  | [] => none
  | p :: rest => if p.1 = k then some p.2 else dictGet rest k

/-- The list comprehension of `load_state` (lines 302-304 and 309-313):
`[str(url).strip() for url in raw_seen if isinstance(url, str) and str(url).strip()]`. -/
def cleanUrls (raw_seen : List Json) : List String :=
  raw_seen.filterMap (fun j =>
    match j with
    | .str u => if pyStrip u = "" then none else some (pyStrip u)
    | _ => none)

/-- The `for key, data in raw_sources.items()` loop of `load_state`
(lines 295-304).  Keys of a parsed JSON object are strings already, so
the `isinstance(key, str)` guard always passes. -/
def parseSources (srcFields : List (String × Json)) : List (String × List String) :=
  srcFields.filterMap (fun kv =>
    match kv.2 with
    | .obj dataFields =>
      match (dictGet dataFields "seen_urls").getD (.arr []) with
      | .arr raw_seen => some (kv.1, cleanUrls raw_seen)
      | _ => none
    | _ => none)

/-- Lines 292-304 of `load_state`: `raw_sources = parsed.get("sources")`
and, when it is a dict, the per-source loop. -/
def loadSourcesPart (fields : List (String × Json)) : List (String × List String) :=
  match dictGet fields "sources" with
  | some (.obj srcFields) => parseSources srcFields
  | _ => []

/-- Lines 306-313 of `load_state`: the legacy block.  A top-level
`"seen_urls"` list is mapped onto the key `"cucuta"` only when that key
is not already present in the state read so far. -/
def applyLegacy (fields : List (String × Json)) (state1 : List (String × List String)) :
    List (String × List String) :=
  match dictGet fields "seen_urls" with
  | some (.arr legacy_seen) =>
    if state1.any (fun p => p.1 == "cucuta") then state1
    else state1 ++ [("cucuta", cleanUrls legacy_seen)]
  | _ => state1

/-- `load_state` on a successfully parsed document (lines 289-315):
read the modern nested `"sources"` mapping, then accept the legacy flat
`{"seen_urls": [...]}` form onto the key `"cucuta"` only when that key
is not already present. -/
def load_state_doc (doc : Json) : List (String × List String) :=
  match doc with
  | .obj fields => applyLegacy fields (loadSourcesPart fields)
  | _ => []

/-- `load_state` (lines 279-315): a missing, unreadable or malformed
state file (`none`) yields the empty mapping. -/
def load_state (file : Option Json) : List (String × List String) :=
  match file with
  | none => []
  | some doc => load_state_doc doc

/-- `save_state` (lines 332-346): the document written to disk.  The
mapping is a Python dict, so its keys are pairwise distinct; the
`for key in sorted(seen_by_source)` loop emits them in sorted order.
Directory creation and the actual write are filesystem effects outside
the embedding; `now` stands for the timestamp. -/
def save_state_doc (seen_by_source : List (String × List String)) (now : String) : Json :=
  Json.obj
    [("sources", Json.obj
        ((List.insertionSort (fun a b => a ≤ b) (seen_by_source.map Prod.fst)).map
          (fun key => (key, Json.obj
            [("seen_urls", Json.arr (((dictGet seen_by_source key).getD []).map Json.str)),
             ("updated_at_utc", Json.str now)])))),
     ("updated_at_utc", Json.str now)]

/-! ## The engine (`run`, scraper.py lines 382-448) -/

/-- The configuration fields the engine's control flow reads.  The
token, chat id, state path, timeout and dry-run flag act only through
the external fetch/send/filesystem collaborators, which the embedding
models as oracles. -/
structure Config where
  initial_send_count : Nat
  max_seen_urls : Nat
  enabled_sources : List String

/-- `NewsItem` (scraper.py lines 43-49). -/
structure NewsItem where
  title : String
  url : String
  published_at : Option String
  source_key : String
  source_name : String
deriving DecidableEq

/-- What one iteration of the per-source loop of `run` produces: the
new seen-list assigned to `updated_by_source[source_key]`, the
`to_notify` queue, the `skip_as_seen` list, the `sent_urls` list, and
the failure records appended to `failures` (modelled by their context
string: the fetch error, or the failed item's URL). -/
structure SourceOutcome where
  updated_seen : List String
  queued : List NewsItem
  skipped_as_seen : List String
  sent_urls : List String
  failures : List String

/-- One iteration of the `for source_key in config.enabled_sources`
loop of `run` (lines 388-437), for one source.  `fetched` is the
outcome of `fetch_news_for_source` (an exception becomes `.error`);
`sendOk item` tells whether `send_telegram_message` succeeds for the
message built from `item`.  The source's `seen_set = set(previously_seen)`
membership test is expressed directly on the list. -/
def processSource (config : Config) (sendOk : NewsItem → Bool)
    (fetched : Except String (List NewsItem)) (previously_seen : List String) :
    SourceOutcome :=
  match fetched with
  | .error exc =>
    { updated_seen := previously_seen, queued := [], skipped_as_seen := [],
      sent_urls := [], failures := ["fetch error: " ++ exc] }
  | .ok news_items =>
    if news_items.isEmpty then
      { updated_seen := previously_seen, queued := [], skipped_as_seen := [],
        sent_urls := [], failures := [] }
    else
      let to_notify :=
        if previously_seen.length = 0 then news_items.take config.initial_send_count
        else news_items.filter (fun item => !(previously_seen.contains item.url))
      let skip_as_seen :=
        if previously_seen.length = 0 then
          (news_items.drop config.initial_send_count).map NewsItem.url
        else []
      let sent_urls := (to_notify.filter (fun item => sendOk item)).map NewsItem.url
      let send_failures := (to_notify.filter (fun item => !(sendOk item))).map NewsItem.url
      { updated_seen :=
          merge_seen_urls previously_seen (sent_urls ++ skip_as_seen) config.max_seen_urls,
        queued := to_notify, skipped_as_seen := skip_as_seen,
        sent_urls := sent_urls, failures := send_failures }

/-- Python dict assignment `updated_by_source[source_key] = v`: replace
the value in place when the key is present, append otherwise. -/
def setKey (m : List (String × List String)) (k : String) (v : List String) :
    List (String × List String) :=
  if m.any (fun p => p.1 == k) then m.map (fun p => if p.1 = k then (k, v) else p)
  else m ++ [(k, v)]

/-- The mapping `updated_by_source` together with the accumulated
`failures` list. -/
structure RunResult where
  state : List (String × List String)
  failures : List String

/-- The loop body of `run` at the level of the whole state: look up
`previous_by_source.get(source_key, [])` (always from the state loaded
at run start), process the source, store the result. -/
def runStep (config : Config) (fetch : String → Except String (List NewsItem))
    (sendOk : NewsItem → Bool) (previous_by_source : List (String × List String))
    (acc : RunResult) (source_key : String) : RunResult :=
  let outcome := processSource config sendOk (fetch source_key)
    ((dictGet previous_by_source source_key).getD [])
  { state := setKey acc.state source_key outcome.updated_seen,
    failures := acc.failures ++ outcome.failures }

/-- The full per-source loop of `run` (lines 387-437):
`updated_by_source = dict(previous_by_source)` and then one `runStep`
per enabled source.  The resulting state is what `save_state` receives. -/
def runSources (config : Config) (fetch : String → Except String (List NewsItem))
    (sendOk : NewsItem → Bool) (previous_by_source : List (String × List String)) :
    RunResult :=
  config.enabled_sources.foldl (runStep config fetch sendOk previous_by_source)
    { state := previous_by_source, failures := [] }

/-- Exit status of `run` (lines 442-448): 1 when any failure was
accumulated, 0 otherwise. -/
def runExitCode (result : RunResult) : Nat :=
  if result.failures.isEmpty then 0 else 1

/-! ## Cleanliness of stripped URLs -/

/-- A URL as the pipeline stores it: already stripped, and non-blank. -/
def CleanUrl (u : String) : Prop := pyStrip u = u ∧ u ≠ ""

instance decCleanUrl (u : String) : Decidable (CleanUrl u) :=
  inferInstanceAs (Decidable (pyStrip u = u ∧ u ≠ ""))

lemma dropWhile_head?_not (p : Char → Bool) (l : List Char) (a : Char)
    (h : (l.dropWhile p).head? = some a) : p a = false := by
  induction l with
  | nil => simp [List.dropWhile] at h
  | cons b t ih =>
    by_cases hb : p b
    · rw [List.dropWhile_cons, if_pos hb] at h
      exact ih h
    · rw [List.dropWhile_cons, if_neg hb] at h
      simp only [List.head?_cons, Option.some.injEq] at h
      subst h
      simpa using hb

lemma dropWhile_eq_self_of_head (p : Char → Bool) (l : List Char)
    (h : ∀ a, l.head? = some a → p a = false) : l.dropWhile p = l := by
  cases l with
  | nil => rfl
  | cons b t =>
    have hb := h b rfl
    simp [List.dropWhile_cons, hb]

lemma getLast?_dropWhile (p : Char → Bool) (l : List Char)
    (h : l.dropWhile p ≠ []) : (l.dropWhile p).getLast? = l.getLast? := by
  induction l with
  | nil => simp [List.dropWhile] at h
  | cons b t ih =>
    by_cases hb : p b
    · rw [List.dropWhile_cons, if_pos hb] at h ⊢
      have ht : t ≠ [] := by
        intro e
        subst e
        simp [List.dropWhile] at h
      rw [ih h]
      cases t with
      | nil => exact absurd rfl ht
      | cons c t2 => simp [List.getLast?_cons_cons]
    · rw [List.dropWhile_cons, if_neg hb]

lemma pyStripList_idem (l : List Char) : pyStripList (pyStripList l) = pyStripList l := by
  unfold pyStripList
  by_cases hBnil : (l.dropWhile isPySpace).reverse.dropWhile isPySpace = []
  · simp [hBnil]
  · have h1 : ((l.dropWhile isPySpace).reverse.dropWhile isPySpace).reverse.dropWhile isPySpace
        = ((l.dropWhile isPySpace).reverse.dropWhile isPySpace).reverse := by
      apply dropWhile_eq_self_of_head
      intro a ha
      rw [List.head?_reverse] at ha
      rw [getLast?_dropWhile _ _ hBnil, List.getLast?_reverse] at ha
      exact dropWhile_head?_not isPySpace l a ha
    rw [h1, List.reverse_reverse]
    have h2 : ((l.dropWhile isPySpace).reverse.dropWhile isPySpace).dropWhile isPySpace
        = (l.dropWhile isPySpace).reverse.dropWhile isPySpace := by
      apply dropWhile_eq_self_of_head
      intro a ha
      exact dropWhile_head?_not isPySpace (l.dropWhile isPySpace).reverse a ha
    rw [h2]

lemma pyStrip_idem (s : String) : pyStrip (pyStrip s) = pyStrip s := by
  show String.mk (pyStripList (pyStripList s.data)) = String.mk (pyStripList s.data)
  exact congrArg String.mk (pyStripList_idem s.data)

/-! ## Characterisation of `merge_seen_urls` -/

/-- The accumulator only ever grows at the tail. -/
lemma cleanDedupAcc_extends (l : List String) :
    ∀ acc, ∃ t, cleanDedupAcc l acc = acc ++ t := by
  induction l with
  | nil => intro acc; exact ⟨[], (List.append_nil acc).symm⟩
  | cons u rest ih =>
    intro acc
    unfold cleanDedupAcc
    by_cases h : pyStrip u = "" ∨ pyStrip u ∈ acc
    · rw [if_pos h]; exact ih acc
    · rw [if_neg h]
      obtain ⟨t, ht⟩ := ih (acc ++ [pyStrip u])
      exact ⟨pyStrip u :: t, by rw [ht, List.append_assoc]; rfl⟩

/-- One step of the dedup pass. -/
lemma cleanDedupAcc_cons (u : String) (rest acc : List String) :
    cleanDedupAcc (u :: rest) acc =
      if pyStrip u = "" ∨ pyStrip u ∈ acc then cleanDedupAcc rest acc
      else cleanDedupAcc rest (acc ++ [pyStrip u]) := rfl

/-- Splitting the input of the dedup pass. -/
lemma cleanDedupAcc_append (l1 l2 : List String) :
    ∀ acc, cleanDedupAcc (l1 ++ l2) acc = cleanDedupAcc l2 (cleanDedupAcc l1 acc) := by
  induction l1 with
  | nil => intro acc; rfl
  | cons u rest ih =>
    intro acc
    rw [List.cons_append, cleanDedupAcc_cons, cleanDedupAcc_cons]
    by_cases h : pyStrip u = "" ∨ pyStrip u ∈ acc
    · rw [if_pos h, if_pos h, ih]
    · rw [if_neg h, if_neg h, ih]

/-- A clean, duplicate-free input passes through the dedup pass
untouched. -/
lemma cleanDedupAcc_of_clean (l : List String) :
    ∀ acc, (∀ u ∈ l, CleanUrl u) → (acc ++ l).Nodup →
      cleanDedupAcc l acc = acc ++ l := by
  induction l with
  | nil => intro acc _ _; exact (List.append_nil acc).symm
  | cons u rest ih =>
    intro acc hclean hnodup
    obtain ⟨hu, hu0⟩ := hclean u (List.mem_cons_self u rest)
    have hnotmem : u ∉ acc := by
      rw [List.nodup_append] at hnodup
      intro hmem
      exact hnodup.2.2 hmem (List.mem_cons_self u rest)
    unfold cleanDedupAcc
    rw [if_neg (by rw [hu]; push_neg; exact ⟨hu0, hnotmem⟩)]
    rw [hu]
    have hassoc : acc ++ [u] ++ rest = acc ++ u :: rest := by
      rw [List.append_assoc]; rfl
    rw [ih (acc ++ [u]) (fun v hv => hclean v (List.mem_cons_of_mem u hv))
      (by rw [hassoc]; exact hnodup), hassoc]

/-- With a cap at least one ahead of the accumulator, the loop of
`merge_seen_urls` computes the truncated dedup pass. -/
lemma mergeLoop_eq_take (l : List String) :
    ∀ acc cap, acc.length < cap →
      mergeLoop l acc cap = (cleanDedupAcc l acc).take cap := by
  induction l with
  | nil =>
    intro acc cap hlt
    exact (List.take_of_length_le (Nat.le_of_lt hlt)).symm
  | cons u rest ih =>
    intro acc cap hlt
    unfold mergeLoop cleanDedupAcc
    by_cases h : pyStrip u = "" ∨ pyStrip u ∈ acc
    · rw [if_pos h, if_pos h]
      exact ih acc cap hlt
    · rw [if_neg h, if_neg h]
      have h1 : (acc ++ [pyStrip u]).length = acc.length + 1 := by simp
      by_cases hcap : cap ≤ (acc ++ [pyStrip u]).length
      · rw [if_pos hcap]
        have hlen : (acc ++ [pyStrip u]).length = cap := by omega
        obtain ⟨t, ht⟩ := cleanDedupAcc_extends rest (acc ++ [pyStrip u])
        rw [ht, List.take_append_eq_append_take, hlen, Nat.sub_self, List.take_zero,
          List.append_nil, List.take_of_length_le (Nat.le_of_eq hlen)]
      · rw [if_neg hcap]
        apply ih
        omega

/-- `merge_seen_urls` is the spec-side merge truncated to the cap,
whenever the cap is at least 1. -/
lemma merge_eq_take (existing new_urls : List String) (cap : Nat) (hcap : 1 ≤ cap) :
    merge_seen_urls existing new_urls cap
      = (cleanDedupAcc (new_urls ++ existing) []).take cap :=
  mergeLoop_eq_take (new_urls ++ existing) [] cap (by simpa using hcap)

/-- Every element the merge keeps is clean; the accumulator's elements
are assumed clean. -/
lemma mergeLoop_clean (l : List String) :
    ∀ acc cap, (∀ u ∈ acc, CleanUrl u) → ∀ u ∈ mergeLoop l acc cap, CleanUrl u := by
  induction l with
  | nil => intro acc cap hacc; exact hacc
  | cons v rest ih =>
    intro acc cap hacc u hu
    unfold mergeLoop at hu
    by_cases h : pyStrip v = "" ∨ pyStrip v ∈ acc
    · rw [if_pos h] at hu
      exact ih acc cap hacc u hu
    · rw [if_neg h] at hu
      push_neg at h
      have hclean2 : ∀ w ∈ acc ++ [pyStrip v], CleanUrl w := by
        intro w hw
        rcases List.mem_append.mp hw with hw | hw
        · exact hacc w hw
        · rw [List.mem_singleton] at hw
          subst hw
          exact ⟨pyStrip_idem v, h.1⟩
      by_cases hcap : cap ≤ (acc ++ [pyStrip v]).length
      · rw [if_pos hcap] at hu
        exact hclean2 u hu
      · rw [if_neg hcap] at hu
        exact ih (acc ++ [pyStrip v]) cap hclean2 u hu

/-- Every element the merge keeps is the strip of some input URL. -/
lemma mergeLoop_mem_source (l : List String) :
    ∀ acc cap u, u ∈ mergeLoop l acc cap → u ∈ acc ∨ ∃ v ∈ l, u = pyStrip v := by
  induction l with
  | nil => intro acc cap u hu; exact Or.inl hu
  | cons v rest ih =>
    intro acc cap u hu
    unfold mergeLoop at hu
    by_cases h : pyStrip v = "" ∨ pyStrip v ∈ acc
    · rw [if_pos h] at hu
      rcases ih acc cap u hu with hl | ⟨w, hw, he⟩
      · exact Or.inl hl
      · exact Or.inr ⟨w, List.mem_cons_of_mem v hw, he⟩
    · rw [if_neg h] at hu
      by_cases hcap : cap ≤ (acc ++ [pyStrip v]).length
      · rw [if_pos hcap] at hu
        rcases List.mem_append.mp hu with hl | hl
        · exact Or.inl hl
        · rw [List.mem_singleton] at hl
          exact Or.inr ⟨v, List.mem_cons_self v rest, hl⟩
      · rw [if_neg hcap] at hu
        rcases ih (acc ++ [pyStrip v]) cap u hu with hl | ⟨w, hw, he⟩
        · rcases List.mem_append.mp hl with hl2 | hl2
          · exact Or.inl hl2
          · rw [List.mem_singleton] at hl2
            exact Or.inr ⟨v, List.mem_cons_self v rest, hl2⟩
        · exact Or.inr ⟨w, List.mem_cons_of_mem v hw, he⟩

/-- The dedup pass never creates duplicates. -/
lemma cleanDedupAcc_nodup (l : List String) :
    ∀ acc, acc.Nodup → (cleanDedupAcc l acc).Nodup := by
  induction l with
  | nil => intro acc h; exact h
  | cons u rest ih =>
    intro acc hacc
    unfold cleanDedupAcc
    by_cases h : pyStrip u = "" ∨ pyStrip u ∈ acc
    · rw [if_pos h]; exact ih acc hacc
    · rw [if_neg h]
      push_neg at h
      apply ih
      rw [List.nodup_append]
      exact ⟨hacc, List.nodup_singleton _, by
        intro a ha hmem
        rw [List.mem_singleton] at hmem
        subst hmem
        exact h.2 ha⟩

/-- A merge with one slot of headroom in the cap returns all clean,
duplicate-free input URLs unchanged. -/
lemma merge_nil_clean (l : List String) (cap : Nat) (hclean : ∀ u ∈ l, CleanUrl u)
    (hnodup : l.Nodup) (hcap : 1 ≤ cap) (hlen : l.length ≤ cap) :
    merge_seen_urls [] l cap = l := by
  rw [merge_seen_urls, List.append_nil, mergeLoop_eq_take l [] cap (by simpa using hcap),
    cleanDedupAcc_of_clean l [] hclean (by simpa using hnodup)]
  simpa using List.take_of_length_le hlen

/-- With cap 0 the loop still emits the first clean URL: the break test
`len(merged) >= max_items` only fires after an append. -/
lemma mergeLoop_zero_cap (l : List String) (h : ∃ u ∈ l, pyStrip u ≠ "") :
    (mergeLoop l [] 0).length = 1 := by
  induction l with
  | nil => simp at h
  | cons u rest ih =>
    unfold mergeLoop
    by_cases hu : pyStrip u = ""
    · rw [if_pos (by simp [hu])]
      apply ih
      obtain ⟨v, hv, hv0⟩ := h
      rcases List.mem_cons.mp hv with he | hv2
      · exact absurd (he ▸ hu) hv0
      · exact ⟨v, hv2, hv0⟩
    · rw [if_neg (by simp [hu])]
      rw [if_pos (by simp)]
      rfl

/-! ## Association-list (Python dict) lemmas -/

lemma dictGet_eq_some_mem {α : Type} {m : List (String × α)} {k : String} {v : α}
    (h : dictGet m k = some v) : (k, v) ∈ m := by
  induction m with
  | nil => simp [dictGet] at h
  | cons p rest ih =>
    rw [dictGet] at h
    by_cases hp : p.1 = k
    · rw [if_pos hp] at h
      obtain ⟨p1, p2⟩ := p
      simp only at hp
      simp only [Option.some.injEq] at h
      subst hp
      subst h
      exact List.mem_cons_self _ _
    · rw [if_neg hp] at h
      exact List.mem_cons_of_mem p (ih h)

lemma dictGet_eq_none_iff {α : Type} {m : List (String × α)} {k : String} :
    dictGet m k = none ↔ k ∉ m.map Prod.fst := by
  induction m with
  | nil => simp [dictGet]
  | cons p rest ih =>
    rw [dictGet]
    by_cases hp : p.1 = k
    · rw [if_pos hp]
      simp [hp]
    · rw [if_neg hp]
      simp only [List.map_cons, List.mem_cons, ih]
      constructor
      · intro h hmem
        rcases hmem with he | hm
        · exact hp he.symm
        · exact h hm
      · intro h hm
        exact h (Or.inr hm)

lemma dictGet_key_mem {α : Type} {m : List (String × α)} {k : String} {v : α}
    (h : dictGet m k = some v) : k ∈ m.map Prod.fst := by
  have := dictGet_eq_some_mem h
  exact List.mem_map.mpr ⟨(k, v), this, rfl⟩

/-- Lookup in a map built from a key list by tabulation. -/
lemma dictGet_map_key {α : Type} (f : String → α) (kl : List String) (k0 : String) :
    dictGet (kl.map (fun k => (k, f k))) k0
      = if k0 ∈ kl then some (f k0) else none := by
  induction kl with
  | nil => simp [dictGet]
  | cons k rest ih =>
    rw [List.map_cons, dictGet]
    by_cases hk : k = k0
    · rw [if_pos hk, hk]
      simp
    · rw [if_neg hk, ih]
      by_cases hm : k0 ∈ rest
      · rw [if_pos hm, if_pos (List.mem_cons_of_mem k hm)]
      · rw [if_neg hm, if_neg (by
          intro hc
          rcases List.mem_cons.mp hc with he | hm2
          · exact hk he.symm
          · exact hm hm2)]

lemma dictGet_append_right {α : Type} (m m2 : List (String × α)) (k : String)
    (h : dictGet m k = none) : dictGet (m ++ m2) k = dictGet m2 k := by
  induction m with
  | nil => rfl
  | cons p rest ih =>
    rw [dictGet] at h
    by_cases hp : p.1 = k
    · rw [if_pos hp] at h
      exact absurd h (by simp)
    · rw [if_neg hp] at h
      rw [List.cons_append, dictGet, if_neg hp]
      exact ih h

lemma dictGet_append_left {α : Type} (m m2 : List (String × α)) (k : String) (w : α)
    (h : dictGet m k = some w) : dictGet (m ++ m2) k = some w := by
  induction m with
  | nil => simp [dictGet] at h
  | cons p rest ih =>
    rw [dictGet] at h
    rw [List.cons_append, dictGet]
    by_cases hp : p.1 = k
    · rw [if_pos hp] at h
      rw [if_pos hp]
      exact h
    · rw [if_neg hp] at h
      rw [if_neg hp]
      exact ih h

lemma dictGet_map_replace (m : List (String × List String)) (k : String) (v : List String)
    (hany : m.any (fun p => p.1 == k) = true) :
    dictGet (m.map (fun p => if p.1 = k then (k, v) else p)) k = some v := by
  induction m with
  | nil => simp at hany
  | cons p rest ih =>
    rw [List.map_cons, dictGet]
    by_cases hp : p.1 = k
    · rw [if_pos hp]
      simp
    · rw [if_neg hp, if_neg hp]
      apply ih
      rw [List.any_cons] at hany
      simpa [hp] using hany

lemma dictGet_map_replace_ne (m : List (String × List String)) (k k2 : String)
    (v : List String) (hne : k2 ≠ k) :
    dictGet (m.map (fun p => if p.1 = k then (k, v) else p)) k2 = dictGet m k2 := by
  induction m with
  | nil => rfl
  | cons p rest ih =>
    rw [List.map_cons, dictGet, dictGet]
    by_cases hp : p.1 = k
    · rw [if_pos hp]
      have h1 : ¬((k, v).1 = k2) := fun he => hne (he.symm)
      have h2 : ¬(p.1 = k2) := fun he => hne (hp ▸ he).symm
      rw [if_neg h1, if_neg h2]
      exact ih
    · rw [if_neg hp]
      by_cases hp2 : p.1 = k2
      · rw [if_pos hp2, if_pos hp2]
      · rw [if_neg hp2, if_neg hp2]
        exact ih

lemma dictGet_setKey_self (m : List (String × List String)) (k : String) (v : List String) :
    dictGet (setKey m k v) k = some v := by
  rw [setKey]
  by_cases hany : m.any (fun p => p.1 == k) = true
  · rw [if_pos hany]
    exact dictGet_map_replace m k v hany
  · rw [if_neg hany]
    have hnone : dictGet m k = none := by
      rw [dictGet_eq_none_iff]
      intro hmem
      apply hany
      obtain ⟨p, hp, he⟩ := List.mem_map.mp hmem
      exact List.any_eq_true.mpr ⟨p, hp, by simp [he]⟩
    rw [dictGet_append_right m _ k hnone, dictGet]
    simp

lemma dictGet_setKey_ne (m : List (String × List String)) (k k2 : String) (v : List String)
    (hne : k2 ≠ k) : dictGet (setKey m k v) k2 = dictGet m k2 := by
  rw [setKey]
  by_cases hany : m.any (fun p => p.1 == k) = true
  · rw [if_pos hany]
    exact dictGet_map_replace_ne m k k2 v hne
  · rw [if_neg hany]
    cases h : dictGet m k2 with
    | none =>
      rw [dictGet_append_right m _ k2 h, dictGet]
      rw [if_neg (fun he => hne he.symm)]
      rfl
    | some w => exact dictGet_append_left m _ k2 w h

/-! ## Equation lemmas for the per-source step -/

lemma processSource_error (config : Config) (sendOk : NewsItem → Bool) (exc : String)
    (prev : List String) :
    processSource config sendOk (.error exc) prev
      = ⟨prev, [], [], [], ["fetch error: " ++ exc]⟩ := rfl

lemma processSource_no_items (config : Config) (sendOk : NewsItem → Bool)
    (prev : List String) :
    processSource config sendOk (.ok []) prev = ⟨prev, [], [], [], []⟩ := rfl

lemma processSource_bootstrap (config : Config) (sendOk : NewsItem → Bool)
    (items : List NewsItem) (hne : items ≠ []) :
    processSource config sendOk (.ok items) [] =
      { updated_seen := merge_seen_urls []
          (((items.take config.initial_send_count).filter (fun i => sendOk i)).map NewsItem.url
            ++ (items.drop config.initial_send_count).map NewsItem.url)
          config.max_seen_urls,
        queued := items.take config.initial_send_count,
        skipped_as_seen := (items.drop config.initial_send_count).map NewsItem.url,
        sent_urls :=
          ((items.take config.initial_send_count).filter (fun i => sendOk i)).map NewsItem.url,
        failures :=
          ((items.take config.initial_send_count).filter (fun i => !(sendOk i))).map
            NewsItem.url } := by
  have hempty : items.isEmpty = false := by
    cases items with
    | nil => exact absurd rfl hne
    | cons a t => rfl
  simp [processSource, hempty]

lemma processSource_steady (config : Config) (sendOk : NewsItem → Bool)
    (items : List NewsItem) (prev : List String) (hne : items ≠ []) (hprev : prev ≠ []) :
    processSource config sendOk (.ok items) prev =
      { updated_seen := merge_seen_urls prev
          (((items.filter (fun i => !(prev.contains i.url))).filter
              (fun i => sendOk i)).map NewsItem.url ++ [])
          config.max_seen_urls,
        queued := items.filter (fun i => !(prev.contains i.url)),
        skipped_as_seen := [],
        sent_urls :=
          ((items.filter (fun i => !(prev.contains i.url))).filter
            (fun i => sendOk i)).map NewsItem.url,
        failures :=
          ((items.filter (fun i => !(prev.contains i.url))).filter
            (fun i => !(sendOk i))).map NewsItem.url } := by
  have hempty : items.isEmpty = false := by
    cases items with
    | nil => exact absurd rfl hne
    | cons a t => rfl
  have hlen : ¬(prev.length = 0) := by
    intro h
    exact hprev (List.length_eq_zero.mp h)
  simp [processSource, hempty, hlen]

/-! ## The run-level fold -/

lemma foldl_runStep_not_mem (config : Config) (fetch : String → Except String (List NewsItem))
    (sendOk : NewsItem → Bool) (prev : List (String × List String)) (keys : List String) :
    ∀ acc k, k ∉ keys →
      dictGet (keys.foldl (runStep config fetch sendOk prev) acc).state k
        = dictGet acc.state k := by
  induction keys with
  | nil => intro acc k _; rfl
  | cons key rest ih =>
    intro acc k hk
    rw [List.foldl_cons, ih _ k (fun h => hk (List.mem_cons_of_mem _ h))]
    show dictGet (setKey acc.state key _) k = _
    exact dictGet_setKey_ne _ key k _ (fun he => hk (he ▸ List.mem_cons_self key rest))

lemma foldl_runStep_error_frozen (config : Config)
    (fetch : String → Except String (List NewsItem)) (sendOk : NewsItem → Bool)
    (prev : List (String × List String)) (keys : List String) (k : String)
    (v : List String) (e : String) (herr : fetch k = .error e)
    (hprev : dictGet prev k = some v) :
    ∀ acc, dictGet acc.state k = some v →
      dictGet (keys.foldl (runStep config fetch sendOk prev) acc).state k = some v := by
  induction keys with
  | nil => intro acc h; exact h
  | cons key rest ih =>
    intro acc h
    rw [List.foldl_cons]
    apply ih
    by_cases hk : key = k
    · subst hk
      have hstep : (runStep config fetch sendOk prev acc key).state
          = setKey acc.state key v := by
        simp only [runStep, herr, processSource_error, hprev, Option.getD_some]
      rw [hstep]
      exact dictGet_setKey_self acc.state key v
    · show dictGet (setKey acc.state key _) k = some v
      rw [dictGet_setKey_ne _ key k _ (fun he => hk he.symm)]
      exact h

/-! ## Duplicate-free URL lists -/

lemma nodup_map_inj {l : List NewsItem} (h : (l.map NewsItem.url).Nodup) :
    ∀ a ∈ l, ∀ b ∈ l, a.url = b.url → a = b := by
  induction l with
  | nil => intro a ha; exact absurd ha (List.not_mem_nil a)
  | cons x t ih =>
    rw [List.map_cons, List.nodup_cons] at h
    intro a ha b hb he
    rcases List.mem_cons.mp ha with rfl | ha2
    · rcases List.mem_cons.mp hb with rfl | hb2
      · rfl
      · exact absurd (List.mem_map.mpr ⟨b, hb2, he.symm⟩) h.1
    · rcases List.mem_cons.mp hb with rfl | hb2
      · exact absurd (List.mem_map.mpr ⟨a, ha2, he⟩) h.1
      · exact ih h.2 a ha2 b hb2 he

/-! ## Cleanliness and shape of the loaded state -/

lemma cleanUrls_clean (raw : List Json) : ∀ u ∈ cleanUrls raw, CleanUrl u := by
  intro u hu
  rw [cleanUrls, List.mem_filterMap] at hu
  obtain ⟨j, _, he⟩ := hu
  split at he
  · split at he
    · exact absurd he (by simp)
    · rename_i s mem hs
      have h2 : pyStrip s = u := by simpa using he
      rw [← h2]
      exact ⟨pyStrip_idem s, hs⟩
  · exact absurd he (by simp)

lemma parseSources_mem (srcFields : List (String × Json)) :
    ∀ p ∈ parseSources srcFields, ∃ raw, p.2 = cleanUrls raw := by
  intro p hp
  rw [parseSources, List.mem_filterMap] at hp
  obtain ⟨kv, _, he⟩ := hp
  split at he
  · split at he
    · rename_i raw _
      have h2 : p = (kv.1, cleanUrls raw) := by simpa using he.symm
      exact ⟨raw, by rw [h2]⟩
    · exact absurd he (by simp)
  · exact absurd he (by simp)

lemma loadSourcesPart_mem (fields : List (String × Json)) :
    ∀ p ∈ loadSourcesPart fields, ∃ raw, p.2 = cleanUrls raw := by
  intro p hp
  rw [loadSourcesPart] at hp
  split at hp
  · rename_i srcFields _
    exact parseSources_mem srcFields p hp
  · exact absurd hp (List.not_mem_nil p)

lemma applyLegacy_mem (fields : List (String × Json)) (state1 : List (String × List String)) :
    ∀ p ∈ applyLegacy fields state1, p ∈ state1 ∨ ∃ raw, p.2 = cleanUrls raw := by
  intro p hp
  rw [applyLegacy] at hp
  split at hp
  · rename_i legacy _
    split at hp
    · exact Or.inl hp
    · rcases List.mem_append.mp hp with h1 | h1
      · exact Or.inl h1
      · rw [List.mem_singleton] at h1
        exact Or.inr ⟨legacy, by rw [h1]⟩
  · exact Or.inl hp

lemma load_state_doc_clean (doc : Json) :
    ∀ p ∈ load_state_doc doc, ∀ u ∈ p.2, CleanUrl u := by
  intro p hp u hu
  cases doc with
  | obj fields =>
    rcases applyLegacy_mem fields (loadSourcesPart fields) p hp with h1 | ⟨raw, hraw⟩
    · obtain ⟨raw, hraw⟩ := loadSourcesPart_mem fields p h1
      rw [hraw] at hu
      exact cleanUrls_clean raw u hu
    · rw [hraw] at hu
      exact cleanUrls_clean raw u hu
  | null => exact absurd hp (List.not_mem_nil p)
  | bool b => exact absurd hp (List.not_mem_nil p)
  | num n => exact absurd hp (List.not_mem_nil p)
  | str s => exact absurd hp (List.not_mem_nil p)
  | arr l => exact absurd hp (List.not_mem_nil p)

/-! ## Round trip of `save_state` and `load_state` -/

lemma stripClean_of_clean (l : List String) (h : ∀ u ∈ l, CleanUrl u) :
    l.filterMap (fun u => if pyStrip u = "" then none else some (pyStrip u)) = l := by
  induction l with
  | nil => rfl
  | cons u t ih =>
    obtain ⟨hu, hu0⟩ := h u (List.mem_cons_self u t)
    have hstep : (if pyStrip u = "" then none else some (pyStrip u)) = some u := by
      rw [hu, if_neg hu0]
    simp only [List.filterMap_cons, hstep]
    rw [ih (fun v hv => h v (List.mem_cons_of_mem u hv))]

lemma cleanUrls_map_str (l : List String) :
    cleanUrls (l.map Json.str)
      = l.filterMap (fun u => if pyStrip u = "" then none else some (pyStrip u)) := by
  rw [cleanUrls, List.filterMap_map]
  rfl

lemma cleanUrls_map_str_clean (l : List String) (h : ∀ u ∈ l, CleanUrl u) :
    cleanUrls (l.map Json.str) = l := by
  rw [cleanUrls_map_str]
  exact stripClean_of_clean l h

lemma parseSources_saved (kl : List String) (g : String → List String) (now : String) :
    parseSources (kl.map (fun key => (key, Json.obj
        [("seen_urls", Json.arr ((g key).map Json.str)),
         ("updated_at_utc", Json.str now)])))
      = kl.map (fun key => (key, cleanUrls ((g key).map Json.str))) := by
  induction kl with
  | nil => rfl
  | cons k t ih =>
    rw [List.map_cons, List.map_cons]
    show parseSources (_ :: _) = _
    rw [parseSources, List.filterMap_cons]
    rw [parseSources] at ih
    simp only [dictGet, if_true, Option.getD_some]
    rw [ih]

lemma load_save_eq (m : List (String × List String)) (now : String) :
    load_state_doc (save_state_doc m now)
      = (List.insertionSort (fun a b => a ≤ b) (m.map Prod.fst)).map
          (fun key => (key, cleanUrls (((dictGet m key).getD []).map Json.str))) := by
  simp only [save_state_doc, load_state_doc, loadSourcesPart, applyLegacy, dictGet]
  exact parseSources_saved _ _ now

lemma dictGet_load_save (m : List (String × List String)) (now : String)
    (hclean : ∀ p ∈ m, ∀ u ∈ p.2, CleanUrl u) (k : String) :
    dictGet (load_state_doc (save_state_doc m now)) k = dictGet m k := by
  rw [load_save_eq, dictGet_map_key]
  have hperm := List.perm_insertionSort (fun a b : String => a ≤ b) (m.map Prod.fst)
  by_cases hk : k ∈ m.map Prod.fst
  · rw [if_pos (hperm.mem_iff.mpr hk)]
    cases hv : dictGet m k with
    | none => exact absurd hk (dictGet_eq_none_iff.mp hv)
    | some v =>
      simp only [Option.getD_some]
      rw [cleanUrls_map_str_clean v (hclean (k, v) (dictGet_eq_some_mem hv))]
  · rw [if_neg (fun hmem => hk (hperm.mem_iff.mp hmem))]
    exact (dictGet_eq_none_iff.mpr hk).symm

lemma load_legacy_flat (l : List Json) :
    load_state_doc (Json.obj [("seen_urls", Json.arr l)]) = [("cucuta", cleanUrls l)] := by
  simp [load_state_doc, loadSourcesPart, applyLegacy, dictGet]

lemma load_modern_and_legacy (srcFields : List (String × Json)) (l : List Json) :
    load_state_doc (Json.obj [("sources", Json.obj srcFields), ("seen_urls", Json.arr l)])
      = if (parseSources srcFields).any (fun p => p.1 == "cucuta")
        then parseSources srcFields
        else parseSources srcFields ++ [("cucuta", cleanUrls l)] := by
  simp [load_state_doc, loadSourcesPart, applyLegacy, dictGet]

/-! ## Claims about `merge_seen_urls` -/

/-- Claim C4, counterexample to "every cap": with `max_items = 0` the
merge still returns one element, because the break test only runs after
an append, so the result is not truncated to at most 0 entries. -/
theorem claim4_counterexample :
    merge_seen_urls [] ["x"] 0 = ["x"]
      ∧ ¬((merge_seen_urls [] ["x"] 0).length ≤ 0) := by
  constructor
  · rfl
  · decide

/-- Claim C4 (amended): for every cap ≥ 1, `merge_seen_urls` equals the
concatenation with new URLs prepended ahead of existing, duplicates
removed keeping the earliest (new-side) occurrence and blanks dropped
(`cleanDedupAcc`), truncated to at most cap entries; consequently the
result never exceeds cap in length and contains no duplicates. -/
theorem claim4_amended (existing new_urls : List String) (cap : Nat) (hcap : 1 ≤ cap) :
    merge_seen_urls existing new_urls cap
        = (cleanDedupAcc (new_urls ++ existing) []).take cap
      ∧ (merge_seen_urls existing new_urls cap).length ≤ cap
      ∧ (merge_seen_urls existing new_urls cap).Nodup := by
  refine ⟨merge_eq_take existing new_urls cap hcap, ?_, ?_⟩
  · rw [merge_eq_take existing new_urls cap hcap]
    exact List.length_take_le cap _
  · rw [merge_eq_take existing new_urls cap hcap]
    exact (cleanDedupAcc_nodup _ [] List.nodup_nil).sublist (List.take_sublist cap _)

theorem claim4_witness :
    merge_seen_urls ["b"] ["a"] 5 = (cleanDedupAcc (["a"] ++ ["b"]) []).take 5
      ∧ (merge_seen_urls ["b"] ["a"] 5).length ≤ 5
      ∧ (merge_seen_urls ["b"] ["a"] 5).Nodup :=
  claim4_amended ["b"] ["a"] 5 (by decide)

/-- Claim C7, counterexample: `merge_seen_urls` also deduplicates the
existing list itself, so `merge(S, [], cap)` is not `S` even when
`len(S) ≤ cap`. -/
theorem claim7_counterexample :
    merge_seen_urls ["a", "a"] [] 5 = ["a"]
      ∧ merge_seen_urls ["a", "a"] [] 5 ≠ ["a", "a"] := by
  constructor
  · rfl
  · decide

/-- Claim C7 (amended): for every already-clean, duplicate-free `S` and
every cap ≥ 1, `merge_seen_urls S [] cap` is `S` truncated to cap when
`len(S) > cap` and `S` unchanged otherwise.  (States produced by the
pipeline itself are always clean and duplicate-free.) -/
theorem claim7_amended (S : List String) (cap : Nat) (hclean : ∀ u ∈ S, CleanUrl u)
    (hnodup : S.Nodup) (hcap : 1 ≤ cap) :
    merge_seen_urls S [] cap = if cap < S.length then S.take cap else S := by
  rw [merge_seen_urls, List.nil_append,
    mergeLoop_eq_take S [] cap (by simpa using hcap),
    cleanDedupAcc_of_clean S [] hclean (by simpa using hnodup), List.nil_append]
  by_cases h : cap < S.length
  · rw [if_pos h]
  · rw [if_neg h]
    exact List.take_of_length_le (Nat.le_of_not_lt h)

theorem claim7_witness :
    merge_seen_urls ["a", "b"] [] 1
      = if 1 < (["a", "b"] : List String).length
        then (["a", "b"] : List String).take 1 else ["a", "b"] :=
  claim7_amended ["a", "b"] 1 (by decide) (by decide) (by decide)

/-- Claim C9: the length bound of `merge_seen_urls` needs
`max_items ≥ 1` — with cap ≥ 1 the result never exceeds the cap, but
with cap 0 and any input containing a non-blank URL the result is a
one-element list; and `parse_int_env` guarantees a value ≥ 1, falling
back to the default on parsed values below 1. -/
theorem claim9 :
    (∀ existing new_urls cap, 1 ≤ cap →
        (merge_seen_urls existing new_urls cap).length ≤ cap)
      ∧ (∀ existing new_urls, (∃ u ∈ new_urls ++ existing, pyStrip u ≠ "") →
          (merge_seen_urls existing new_urls 0).length = 1)
      ∧ (∀ parsed d, 1 ≤ d → 1 ≤ parse_int_env_model parsed d)
      ∧ (∀ v d, v < 1 → parse_int_env_model (some v) d = d) := by
  refine ⟨?_, ?_, ?_, ?_⟩
  · intro existing new_urls cap hcap
    rw [merge_eq_take existing new_urls cap hcap]
    exact List.length_take_le cap _
  · intro existing new_urls h
    exact mergeLoop_zero_cap _ h
  · intro parsed d hd
    cases parsed with
    | none => exact hd
    | some v =>
      by_cases hv : v < 1
      · simpa [parse_int_env_model, hv] using hd
      · simp only [parse_int_env_model, if_neg hv]
        omega
  · intro v d hv
    simp [parse_int_env_model, hv]

theorem claim9_witness :
    (merge_seen_urls ["a"] ["b"] 3).length ≤ 3
      ∧ (merge_seen_urls [] ["u"] 0).length = 1
      ∧ 1 ≤ parse_int_env_model (some 0) 5
      ∧ parse_int_env_model (some 0) 5 = 5 :=
  ⟨claim9.1 ["a"] ["b"] 3 (by decide),
   claim9.2.1 [] ["u"] ⟨"u", by decide, by decide⟩,
   claim9.2.2.1 (some 0) 5 (by decide),
   claim9.2.2.2 0 5 (by decide)⟩

/-- Claim C10: every URL kept by `merge_seen_urls` is stripped and
non-empty; two inputs differing only in surrounding whitespace are
treated as duplicates and the earliest occurrence is kept in stripped
form; and `load_state` returns only stripped, non-empty URLs. -/
theorem claim10 :
    (∀ existing new_urls cap u, u ∈ merge_seen_urls existing new_urls cap → CleanUrl u)
      ∧ merge_seen_urls [] ["a ", " a", "b"] 10 = ["a", "b"]
      ∧ (∀ doc k urls, dictGet (load_state_doc doc) k = some urls →
          ∀ u ∈ urls, CleanUrl u) := by
  refine ⟨?_, by decide, ?_⟩
  · intro existing new_urls cap u hu
    exact mergeLoop_clean _ [] cap (fun v hv => absurd hv (List.not_mem_nil v)) u hu
  · intro doc k urls hget u hu
    exact load_state_doc_clean doc (k, urls) (dictGet_eq_some_mem hget) u hu

theorem claim10_witness :
    CleanUrl "a" ∧ CleanUrl "u" :=
  ⟨claim10.1 [] ["a "] 5 "a" (by decide),
   claim10.2.2 (Json.obj [("seen_urls", Json.arr [Json.str " u "])]) "cucuta" ["u"]
     (by decide) "u" (by decide)⟩

/-! ## Claim about the state-file round trip -/

/-- Claim C6, counterexample to the universal round trip: `load_state`
strips every URL it reads, so a mapping holding a URL with surrounding
whitespace does not survive `save` then `load` unchanged. -/
theorem claim6_counterexample :
    load_state_doc (save_state_doc [("k", [" x "])] "t") = [("k", ["x"])]
      ∧ load_state_doc (save_state_doc [("k", [" x "])] "t") ≠ [("k", [" x "])] := by
  decide

/-- Claim C6 (amended): for every mapping whose URLs are already
stripped and non-blank, `save_state` then `load_state` on the same path
yields a behaviorally equal mapping (same lookup at every key); and
`load_state` accepts the legacy flat document `{"seen_urls": [...]}`,
mapping it onto the fixed key `"cucuta"` only when that key is not
already present in the modern nested `"sources"` mapping. -/
theorem claim6_amended (m : List (String × List String)) (now : String)
    (hclean : ∀ p ∈ m, ∀ u ∈ p.2, CleanUrl u) :
    (∀ k, dictGet (load_state_doc (save_state_doc m now)) k = dictGet m k)
      ∧ (∀ l, load_state_doc (Json.obj [("seen_urls", Json.arr l)])
          = [("cucuta", cleanUrls l)])
      ∧ (∀ srcFields l,
          load_state_doc
              (Json.obj [("sources", Json.obj srcFields), ("seen_urls", Json.arr l)])
            = if (parseSources srcFields).any (fun p => p.1 == "cucuta")
              then parseSources srcFields
              else parseSources srcFields ++ [("cucuta", cleanUrls l)]) :=
  ⟨fun k => dictGet_load_save m now hclean k,
   fun l => load_legacy_flat l,
   fun srcFields l => load_modern_and_legacy srcFields l⟩

theorem claim6_witness :
    dictGet (load_state_doc (save_state_doc [("k", ["u"])] "t")) "k"
      = dictGet [("k", ["u"])] "k" :=
  (claim6_amended [("k", ["u"])] "t" (by decide)).1 "k"

/-! ## Claims about the engine -/

/-- Concrete items used by the engine counterexamples and witnesses. -/
def testItem1 : NewsItem := ⟨"t1", "u1", none, "cucuta", "n"⟩

def testItem2 : NewsItem := ⟨"t2", "u2", none, "cucuta", "n"⟩

def testItem3 : NewsItem := ⟨"t3", "u3", none, "cucuta", "n"⟩

/-- Claim C3: with a non-empty prior seen-state, the queue of items to
deliver is exactly the candidates whose URL is absent from the prior
seen set, in page order, with no count cap applied. -/
theorem claim3 (config : Config) (sendOk : NewsItem → Bool) (items : List NewsItem)
    (prev : List String) (hprev : prev ≠ []) :
    (processSource config sendOk (.ok items) prev).queued
      = items.filter (fun item => !(prev.contains item.url)) := by
  cases items with
  | nil => rfl
  | cons a t =>
    rw [processSource_steady config sendOk (a :: t) prev (by simp) hprev]

theorem claim3_witness :
    (processSource ⟨2, 10, ["cucuta"]⟩ (fun _ => true)
        (.ok [testItem1, testItem2, testItem3]) ["u1", "u2"]).queued
      = [testItem1, testItem2, testItem3].filter
          (fun item => !((["u1", "u2"] : List String).contains item.url)) :=
  claim3 ⟨2, 10, ["cucuta"]⟩ (fun _ => true) [testItem1, testItem2, testItem3]
    ["u1", "u2"] (by decide)

/-- Claim C8: a fetch/extract failure leaves the source's seen-state
unchanged, appends exactly one failure record and synthesizes no items;
and a source key present in the loaded state but not enabled this run
keeps its entry untouched in the end-of-run mapping. -/
theorem claim8 (config : Config) (fetch : String → Except String (List NewsItem))
    (sendOk : NewsItem → Bool) (prev : List (String × List String)) (k : String) :
    (∀ exc prevSeen, processSource config sendOk (.error exc) prevSeen
        = ⟨prevSeen, [], [], [], ["fetch error: " ++ exc]⟩)
      ∧ (k ∉ config.enabled_sources →
          dictGet (runSources config fetch sendOk prev).state k = dictGet prev k)
      ∧ (∀ v e, fetch k = .error e → dictGet prev k = some v →
          dictGet (runSources config fetch sendOk prev).state k = some v) := by
  refine ⟨fun exc prevSeen => processSource_error config sendOk exc prevSeen, ?_, ?_⟩
  · intro hk
    exact foldl_runStep_not_mem config fetch sendOk prev config.enabled_sources
      { state := prev, failures := [] } k hk
  · intro v e herr hprev
    exact foldl_runStep_error_frozen config fetch sendOk prev config.enabled_sources
      k v e herr hprev { state := prev, failures := [] } hprev

theorem claim8_witness :
    (processSource ⟨1, 5, ["cucuta"]⟩ (fun _ => true) (.error "boom") ["u1"]
        = ⟨["u1"], [], [], [], ["fetch error: boom"]⟩)
      ∧ dictGet (runSources ⟨1, 5, ["cucuta"]⟩ (fun _ => .error "boom") (fun _ => true)
            [("other", ["x"]), ("cucuta", ["u1"])]).state "other"
          = dictGet [("other", ["x"]), ("cucuta", ["u1"])] "other"
      ∧ dictGet (runSources ⟨1, 5, ["cucuta"]⟩ (fun _ => .error "boom") (fun _ => true)
            [("other", ["x"]), ("cucuta", ["u1"])]).state "cucuta" = some ["u1"] :=
  ⟨(claim8 ⟨1, 5, ["cucuta"]⟩ (fun _ => .error "boom") (fun _ => true)
      [("other", ["x"]), ("cucuta", ["u1"])] "other").1 "boom" ["u1"],
   (claim8 ⟨1, 5, ["cucuta"]⟩ (fun _ => .error "boom") (fun _ => true)
      [("other", ["x"]), ("cucuta", ["u1"])] "other").2.1 (by decide),
   (claim8 ⟨1, 5, ["cucuta"]⟩ (fun _ => .error "boom") (fun _ => true)
      [("other", ["x"]), ("cucuta", ["u1"])] "cucuta").2.2 ["u1"] "boom" rfl (by decide)⟩

/-! ## Bootstrap and delivery claims -/

lemma bootstrap_sent_skip_sublist (sendOk : NewsItem → Bool) (items : List NewsItem)
    (n : Nat) :
    List.Sublist
      (((items.take n).filter (fun i => sendOk i)).map NewsItem.url
        ++ (items.drop n).map NewsItem.url)
      (items.map NewsItem.url) := by
  have h1 : List.Sublist (((items.take n).filter (fun i => sendOk i)).map NewsItem.url)
      ((items.take n).map NewsItem.url) := (List.filter_sublist _).map _
  have h := h1.append (List.Sublist.refl ((items.drop n).map NewsItem.url))
  have heq : (items.take n).map NewsItem.url ++ (items.drop n).map NewsItem.url
      = items.map NewsItem.url := by
    rw [← List.map_append, List.take_append_drop]
  rw [heq] at h
  exact h

/-- A URL that is neither among the new URLs nor among the existing
ones (all clean) does not appear in the merged result. -/
lemma not_mem_merge (existing new_urls : List String) (cap : Nat) (u : String)
    (hnew : ∀ v ∈ new_urls, CleanUrl v) (hexist : ∀ v ∈ existing, CleanUrl v)
    (hnotnew : u ∉ new_urls) (hnotexist : u ∉ existing) :
    u ∉ merge_seen_urls existing new_urls cap := by
  intro hmem
  rcases mergeLoop_mem_source (new_urls ++ existing) [] cap u hmem with h0 | ⟨v, hv, he⟩
  · exact absurd h0 (List.not_mem_nil u)
  · rcases List.mem_append.mp hv with hv2 | hv2
    · rw [he, (hnew v hv2).1] at hnotnew
      exact hnotnew hv2
    · rw [he, (hexist v hv2).1] at hnotexist
      exact hnotexist hv2

/-- The new URLs placed first in the merge input all survive, as long
as there are no more of them than the cap. -/
lemma sent_mem_merge (existing sent rest : List String) (cap : Nat)
    (hsentclean : ∀ v ∈ sent, CleanUrl v) (hsentnodup : sent.Nodup)
    (hlen : sent.length ≤ cap) (u : String) (hu : u ∈ sent) :
    u ∈ merge_seen_urls existing (sent ++ rest) cap := by
  have hpos : 0 < sent.length := List.length_pos.mpr (List.ne_nil_of_mem hu)
  have hcap : 1 ≤ cap := le_trans hpos hlen
  rw [merge_seen_urls, List.append_assoc,
    mergeLoop_eq_take _ [] cap (by simpa using hcap),
    cleanDedupAcc_append sent (rest ++ existing) []]
  have hsent : cleanDedupAcc sent [] = sent := by
    have h2 := cleanDedupAcc_of_clean sent [] hsentclean (by simpa using hsentnodup)
    simpa using h2
  rw [hsent]
  obtain ⟨t, ht⟩ := cleanDedupAcc_extends (rest ++ existing) sent
  rw [ht, List.take_append_eq_append_take, List.take_of_length_le hlen]
  exact List.mem_append_left _ hu

/-- Claim C1, counterexample: bootstrap with `initial_send_count = 2`
and three candidates, all deliveries succeeding.  The merged seen-state
holds all three URLs — not `min(2, 3) = 2` — and candidate 3's URL is
recorded as seen. -/
theorem claim1_counterexample :
    (processSource ⟨2, 1000, ["cucuta"]⟩ (fun _ => true)
        (.ok [testItem1, testItem2, testItem3]) []).updated_seen = ["u1", "u2", "u3"]
      ∧ "u3" ∈ (processSource ⟨2, 1000, ["cucuta"]⟩ (fun _ => true)
          (.ok [testItem1, testItem2, testItem3]) []).updated_seen
      ∧ (processSource ⟨2, 1000, ["cucuta"]⟩ (fun _ => true)
          (.ok [testItem1, testItem2, testItem3]) []).updated_seen.length ≠ min 2 3 := by
  decide

/-- Claim C1 (amended): on a bootstrap run at most `initial_send_count`
items are delivered, but the merged seen-state holds the successfully
delivered URLs followed by all bootstrap-skipped URLs: with every
delivery succeeding (and clean, distinct candidate URLs within the cap)
it is exactly the full candidate URL list, of length `len(candidates)`,
not `min(initial_send_count, len(candidates))`. -/
theorem claim1_amended (config : Config) (sendOk : NewsItem → Bool)
    (items : List NewsItem) (hclean : ∀ i ∈ items, CleanUrl i.url)
    (hnodup : (items.map NewsItem.url).Nodup)
    (hlen : items.length ≤ config.max_seen_urls) (hcap : 1 ≤ config.max_seen_urls) :
    (processSource config sendOk (.ok items) []).sent_urls.length
        ≤ config.initial_send_count
      ∧ ((∀ i ∈ items, sendOk i = true) →
          (processSource config sendOk (.ok items) []).updated_seen
            = items.map NewsItem.url) := by
  cases items with
  | nil =>
    refine ⟨by simp [processSource_no_items], fun _ => by simp [processSource_no_items]⟩
  | cons a t =>
    simp only [processSource_bootstrap config sendOk (a :: t) (by simp)]
    constructor
    · rw [List.length_map]
      exact le_trans (List.length_filter_le _ _) (List.length_take_le _ _)
    · intro hall
      have hfil : (List.take config.initial_send_count (a :: t)).filter (fun i => sendOk i)
          = List.take config.initial_send_count (a :: t) :=
        List.filter_eq_self.mpr (fun i hi => hall i (List.take_subset _ _ hi))
      rw [hfil, ← List.map_append, List.take_append_drop]
      exact merge_nil_clean _ _
        (fun u hu => by
          obtain ⟨i, hi, he⟩ := List.mem_map.mp hu
          rw [← he]
          exact hclean i hi)
        hnodup hcap (by rw [List.length_map]; exact hlen)

theorem claim1_witness :
    (processSource ⟨2, 1000, ["cucuta"]⟩ (fun _ => true)
        (.ok [testItem1, testItem2]) []).sent_urls.length ≤ 2
      ∧ (processSource ⟨2, 1000, ["cucuta"]⟩ (fun _ => true)
          (.ok [testItem1, testItem2]) []).updated_seen
        = [testItem1, testItem2].map NewsItem.url :=
  ⟨(claim1_amended ⟨2, 1000, ["cucuta"]⟩ (fun _ => true) [testItem1, testItem2]
      (by decide) (by decide) (by decide) (by decide)).1,
   (claim1_amended ⟨2, 1000, ["cucuta"]⟩ (fun _ => true) [testItem1, testItem2]
      (by decide) (by decide) (by decide) (by decide)).2 (by decide)⟩

/-- Claim C2, counterexample to "the post-run seen-state contains the
URLs of all bootstrap-skipped candidates": with `max_seen_urls = 1` the
cap truncation evicts the skipped URL. -/
theorem claim2_counterexample :
    (processSource ⟨1, 1, ["cucuta"]⟩ (fun _ => true)
        (.ok [testItem1, testItem2]) []).skipped_as_seen = ["u2"]
      ∧ "u2" ∉ (processSource ⟨1, 1, ["cucuta"]⟩ (fun _ => true)
          (.ok [testItem1, testItem2]) []).updated_seen := by
  decide

/-- Claim C2 (amended): on a bootstrap run, exactly the first
`initial_send_count` candidates in page order are queued for delivery;
every remaining candidate is not delivered but its URL is
unconditionally placed in the merge input as seen, whatever the
delivery outcomes; and, whenever the candidate URLs are clean, distinct
and within `max_seen_urls`, the post-run seen-state is exactly the
successfully delivered URLs followed by all bootstrap-skipped URLs. -/
theorem claim2_amended (config : Config) (sendOk : NewsItem → Bool)
    (items : List NewsItem) (hclean : ∀ i ∈ items, CleanUrl i.url)
    (hnodup : (items.map NewsItem.url).Nodup)
    (hlen : items.length ≤ config.max_seen_urls) :
    (processSource config sendOk (.ok items) []).queued
        = items.take config.initial_send_count
      ∧ (processSource config sendOk (.ok items) []).skipped_as_seen
          = (items.drop config.initial_send_count).map NewsItem.url
      ∧ (processSource config sendOk (.ok items) []).updated_seen
          = (processSource config sendOk (.ok items) []).sent_urls
            ++ (processSource config sendOk (.ok items) []).skipped_as_seen := by
  cases items with
  | nil =>
    refine ⟨?_, ?_, ?_⟩ <;> simp [processSource_no_items]
  | cons a t =>
    simp only [processSource_bootstrap config sendOk (a :: t) (by simp)]
    refine ⟨trivial, trivial, ?_⟩
    have hsub := bootstrap_sent_skip_sublist sendOk (a :: t) config.initial_send_count
    have hcap : 1 ≤ config.max_seen_urls := by
      have h1 : 0 < (a :: t).length := by simp
      omega
    exact merge_nil_clean _ _
      (fun u hu => by
        obtain ⟨i, hi, he⟩ := List.mem_map.mp (hsub.subset hu)
        rw [← he]
        exact hclean i hi)
      (hnodup.sublist hsub) hcap
      (le_trans hsub.length_le (by rw [List.length_map]; exact hlen))

theorem claim2_witness :
    (processSource ⟨1, 1000, ["cucuta"]⟩ (fun _ => false)
        (.ok [testItem1, testItem2]) []).queued = [testItem1, testItem2].take 1
      ∧ (processSource ⟨1, 1000, ["cucuta"]⟩ (fun _ => false)
          (.ok [testItem1, testItem2]) []).skipped_as_seen
        = ([testItem1, testItem2].drop 1).map NewsItem.url
      ∧ (processSource ⟨1, 1000, ["cucuta"]⟩ (fun _ => false)
          (.ok [testItem1, testItem2]) []).updated_seen
        = (processSource ⟨1, 1000, ["cucuta"]⟩ (fun _ => false)
            (.ok [testItem1, testItem2]) []).sent_urls
          ++ (processSource ⟨1, 1000, ["cucuta"]⟩ (fun _ => false)
              (.ok [testItem1, testItem2]) []).skipped_as_seen :=
  claim2_amended ⟨1, 1000, ["cucuta"]⟩ (fun _ => false) [testItem1, testItem2]
    (by decide) (by decide) (by decide)

/-- Claim C5, counterexample to "every successfully delivered URL is
present in the post-run seen-state": with `max_seen_urls = 1` and two
successful deliveries, the cap truncation drops the second URL. -/
theorem claim5_counterexample :
    (processSource ⟨2, 1, ["cucuta"]⟩ (fun _ => true)
        (.ok [testItem1, testItem2]) []).sent_urls = ["u1", "u2"]
      ∧ "u2" ∉ (processSource ⟨2, 1, ["cucuta"]⟩ (fun _ => true)
          (.ok [testItem1, testItem2]) []).updated_seen := by
  decide

/-- Claim C5 (amended): for candidates with clean, pairwise-distinct
URLs and a clean prior seen-state, a failed delivery's URL is absent
from the post-run seen-state (so a later run would offer it again),
and every successfully delivered URL is present provided the number of
successful deliveries does not exceed `max_seen_urls`. -/
theorem claim5_amended (config : Config) (sendOk : NewsItem → Bool)
    (items : List NewsItem) (prev : List String)
    (hclean : ∀ i ∈ items, CleanUrl i.url)
    (hnodup : (items.map NewsItem.url).Nodup)
    (hprevclean : ∀ u ∈ prev, CleanUrl u) :
    (∀ item ∈ (processSource config sendOk (.ok items) prev).queued,
        sendOk item = false →
          item.url ∉ (processSource config sendOk (.ok items) prev).updated_seen)
      ∧ ((processSource config sendOk (.ok items) prev).sent_urls.length
            ≤ config.max_seen_urls →
          ∀ u ∈ (processSource config sendOk (.ok items) prev).sent_urls,
            u ∈ (processSource config sendOk (.ok items) prev).updated_seen) := by
  cases items with
  | nil =>
    constructor
    · intro item hitem _
      exact absurd hitem (List.not_mem_nil item)
    · intro _ u hu
      exact absurd hu (List.not_mem_nil u)
  | cons a t =>
    by_cases hp : prev = []
    · subst hp
      simp only [processSource_bootstrap config sendOk (a :: t) (by simp)]
      constructor
      · intro item hitem hfail
        refine not_mem_merge [] _ config.max_seen_urls item.url ?_ ?_ ?_ (List.not_mem_nil _)
        · intro v hv
          have hsub := bootstrap_sent_skip_sublist sendOk (a :: t) config.initial_send_count
          obtain ⟨i, hi, he⟩ := List.mem_map.mp (hsub.subset hv)
          rw [← he]
          exact hclean i hi
        · intro v hv
          exact absurd hv (List.not_mem_nil v)
        · intro hin
          rcases List.mem_append.mp hin with hin | hin
          · obtain ⟨j, hj, hej⟩ := List.mem_map.mp hin
            obtain ⟨hjmem, hjok⟩ := List.mem_filter.mp hj
            have hjitems : j ∈ a :: t := List.take_subset _ _ hjmem
            have hitemitems : item ∈ a :: t := List.take_subset _ _ hitem
            have hji : j = item := nodup_map_inj hnodup j hjitems item hitemitems hej
            rw [hji, hfail] at hjok
            simp at hjok
          · obtain ⟨j, hj, hej⟩ := List.mem_map.mp hin
            have hmem1 : item.url
                ∈ (List.take config.initial_send_count (a :: t)).map NewsItem.url :=
              List.mem_map.mpr ⟨item, hitem, rfl⟩
            have hmem2 : item.url
                ∈ (List.drop config.initial_send_count (a :: t)).map NewsItem.url :=
              List.mem_map.mpr ⟨j, hj, hej⟩
            have hnod2 := hnodup
            rw [← List.take_append_drop config.initial_send_count (a :: t),
              List.map_append] at hnod2
            exact (List.nodup_append.mp hnod2).2.2 hmem1 hmem2
      · intro hlen u hu
        refine sent_mem_merge [] _ _ config.max_seen_urls ?_ ?_ hlen u hu
        · intro v hv
          have hsub : List.Sublist
              (((List.take config.initial_send_count (a :: t)).filter
                  (fun i => sendOk i)).map NewsItem.url)
              ((a :: t).map NewsItem.url) :=
            ((List.filter_sublist _).trans (List.take_sublist _ _)).map _
          obtain ⟨i, hi, he⟩ := List.mem_map.mp (hsub.subset hv)
          rw [← he]
          exact hclean i hi
        · exact hnodup.sublist
            (((List.filter_sublist _).trans (List.take_sublist _ _)).map _)
    · simp only [processSource_steady config sendOk (a :: t) prev (by simp) hp]
      constructor
      · intro item hitem hfail
        obtain ⟨hitems, hcnt⟩ := List.mem_filter.mp hitem
        have hnotprev : item.url ∉ prev := by
          intro hmem
          have h2 : prev.contains item.url = true := List.elem_iff.mpr hmem
          rw [h2] at hcnt
          simp at hcnt
        refine not_mem_merge prev _ config.max_seen_urls item.url ?_ hprevclean ?_ hnotprev
        · intro v hv
          rcases List.mem_append.mp hv with hv2 | hv2
          · have hsub : List.Sublist
                ((((a :: t).filter (fun i => !(prev.contains i.url))).filter
                    (fun i => sendOk i)).map NewsItem.url)
                ((a :: t).map NewsItem.url) :=
              ((List.filter_sublist _).trans (List.filter_sublist _)).map _
            obtain ⟨i, hi, he⟩ := List.mem_map.mp (hsub.subset hv2)
            rw [← he]
            exact hclean i hi
          · exact absurd hv2 (List.not_mem_nil v)
        · intro hin
          rcases List.mem_append.mp hin with hin | hin
          · obtain ⟨j, hj, hej⟩ := List.mem_map.mp hin
            obtain ⟨hjmem, hjok⟩ := List.mem_filter.mp hj
            have hjitems : j ∈ a :: t := List.mem_of_mem_filter hjmem
            have hitemitems : item ∈ a :: t := List.mem_of_mem_filter hitem
            have hji : j = item := nodup_map_inj hnodup j hjitems item hitemitems hej
            rw [hji, hfail] at hjok
            simp at hjok
          · exact absurd hin (List.not_mem_nil _)
      · intro hlen u hu
        refine sent_mem_merge prev _ [] config.max_seen_urls ?_ ?_ hlen u hu
        · intro v hv
          have hsub : List.Sublist
              ((((a :: t).filter (fun i => !(prev.contains i.url))).filter
                  (fun i => sendOk i)).map NewsItem.url)
              ((a :: t).map NewsItem.url) :=
            ((List.filter_sublist _).trans (List.filter_sublist _)).map _
          obtain ⟨i, hi, he⟩ := List.mem_map.mp (hsub.subset hv)
          rw [← he]
          exact hclean i hi
        · exact hnodup.sublist
            (((List.filter_sublist _).trans (List.filter_sublist _)).map _)

theorem claim5_witness :
    testItem2.url ∉ (processSource ⟨2, 10, ["cucuta"]⟩ (fun i => i.url == "u1")
        (.ok [testItem1, testItem2]) []).updated_seen
      ∧ "u1" ∈ (processSource ⟨2, 10, ["cucuta"]⟩ (fun i => i.url == "u1")
          (.ok [testItem1, testItem2]) []).updated_seen :=
  ⟨(claim5_amended ⟨2, 10, ["cucuta"]⟩ (fun i => i.url == "u1") [testItem1, testItem2] []
      (by decide) (by decide) (by decide)).1 testItem2 (by decide) (by decide),
   (claim5_amended ⟨2, 10, ["cucuta"]⟩ (fun i => i.url == "u1") [testItem1, testItem2] []
      (by decide) (by decide) (by decide)).2 (by decide) "u1" (by decide)⟩
